import Mathlib

/-!
# Verification of the sinzlab-tools multi-host command console

A shallow embedding of `src/sinzlab_tools/main.py` (the CLI layer, the two
record parsers and the regex-based GPU-field extraction) together with
spec-modelled definitions for the two helpers the repository imports from
its `utils` module (`run_group_command` and `construct_table`), and proofs
of the specification claims about them.

Strings are modelled as Lean `String`s; the splitting primitives work on
`List Char` and mirror Python's `str.split` semantics exactly (a separator
argument splits on every non-overlapping occurrence, left to right, and
always yields at least one segment; `str.split()` with no argument splits
on whitespace runs and drops empty segments).
-/

/-- Python `s.split('\n')`: split on every newline; always returns at least
one (possibly empty) segment. -/
def splitNl : List Char → List (List Char)
  | [] => [[]]
  | c :: cs =>
    if c = '\n' then [] :: splitNl cs
    else
      match splitNl cs with
      | [] => [[c]]
      | l :: ls => (c :: l) :: ls

/-- Python `s.split(', ')`: split on every non-overlapping occurrence of the
two-character separator, scanning left to right. -/
def splitCS : List Char → List (List Char)
  | [] => [[]]
  | ',' :: ' ' :: cs => [] :: splitCS cs
  | c :: cs =>
    match splitCS cs with
    | [] => [[c]]
    | l :: ls => (c :: l) :: ls

/-- Python `s.split(',')`. -/
def splitComma : List Char → List (List Char)
  | [] => [[]]
  | c :: cs =>
    if c = ',' then [] :: splitComma cs
    else
      match splitComma cs with
      | [] => [[c]]
      | l :: ls => (c :: l) :: ls

/-- Helper for `splitWs`: accumulates the current word (reversed). -/
def splitWsAux : List Char → List Char → List (List Char)
  | [], acc => if acc = [] then [] else [acc.reverse]
  | c :: cs, acc =>
    if c.isWhitespace then
      if acc = [] then splitWsAux cs [] else acc.reverse :: splitWsAux cs []
    else splitWsAux cs (c :: acc)

/-- Python `s.split()` (no separator): split on runs of whitespace and drop
empty segments. -/
def splitWs (s : List Char) : List (List Char) :=
  splitWsAux s []

/-- A parsed record: the Python `dict` comprehension over `zip(field_names,
values)` with pairwise-distinct field names, kept as the association list
the zip produces. -/
abbrev Record := List (String × String)

/-- The `field_names` tuple of `check_gpus` (`main.py` lines 46-52). -/
def gpuFieldNames : List String :=
  ["INDEX", "UTIL (%)", "TEMP (°C)", "USED (MiB)", "TOTAL (MiB)"]

/-- `{k: v for k, v in zip(field_names, values)}`: the dict built by zipping
the declared field names with the comma-split values of one line. -/
def zipRecord (ks vs : List String) : Record := List.zip ks vs

/-- The GPU-telemetry parse of one host's stdout (`check_gpus`, `main.py`
lines 56-59): split stdout on newlines, split each line on `', '`, drop the
last element of the resulting list, and zip each remaining line with the
field names. -/
def gpuRecords (stdout : String) : List Record :=
  let result := ((splitNl stdout.data).map splitCS).dropLast
  result.map (fun line => zipRecord gpuFieldNames (line.map (fun l => String.mk l)))

/-- The literal `NVIDIA_VISIBLE_DEVICES=` the regex of `main.py` line 148
requires before the captured group. -/
def nvdKey : List Char := "NVIDIA_VISIBLE_DEVICES=".data

/-- The capture group `(all|\d+)` tried at one position: the alternation
tries the literal `all` first, then a greedy non-empty digit run. -/
def nvdValue (rest : List Char) : Option (List Char) :=
  if rest.take 3 = "all".data then some "all".data
  else if rest.takeWhile Char.isDigit = [] then none
  else some (rest.takeWhile Char.isDigit)

/-- Whole pattern tried at one start position. -/
def nvdMatchAt (s : List Char) : Option (List Char) :=
  if s.take nvdKey.length = nvdKey then nvdValue (s.drop nvdKey.length) else none

/-- `re.search(r'NVIDIA_VISIBLE_DEVICES=(all|\d+)', s)`: leftmost match,
returning the captured group. -/
def nvdSearch (s : List Char) : Option (List Char) :=
  match nvdMatchAt s with
  | some v => some v
  | none =>
    match s with
    | [] => none
    | _ :: cs => nvdSearch cs

/-- `match.group(1) if match else ''` (`main.py` line 149). -/
def gpuFieldOf (inspectStdout : String) : String :=
  match nvdSearch inspectStdout.data with
  | some v => String.mk v
  | none => ""

/-- The `field_names` list of `ps` (`main.py` lines 111-119). -/
def psFieldNames : List String :=
  ["ID", "Image", "Command", "RunningFor", "Status", "Ports", "Names"]

/-- One container record (`ps`, `main.py` lines 139-150): split the line on
`', '`, zip with the seven field names, run the inspect command keyed by the
first value and store the extracted GPU field under the key `GPU`.
`inspectOut` maps a container id to the stdout of its inspect command. -/
def psRecordOfLine (inspectOut : String → String) (line : List Char) : Record :=
  let values := (splitCS line).map (fun l => String.mk l)
  let conId := values.headD ""
  let container := zipRecord psFieldNames values
  container ++ [("GPU", gpuFieldOf (inspectOut conId))]

/-- The container-listing parse of one host's stdout (`ps`, `main.py` lines
136-153): split on newlines, drop the last segment, one record per line. -/
def psRecords (inspectOut : String → String) (stdout : String) : List Record :=
  let lines := (splitNl stdout.data).dropLast
  lines.map (psRecordOfLine inspectOut)

/-- The host-list computation of the `cli` group (`main.py` lines 21-27):
`hosts.split(',')` when the `--hosts` value is truthy (given and non-empty),
else the configured default split on whitespace; then
`'.'.join([h, common])` for each short name. -/
def resolveHosts (hostsOpt : Option String) (cfgHosts common : String) :
    List String :=
  let shorts :=
    match hostsOpt with
    | some h => if h.data = [] then splitWs cfgHosts.data else splitComma h.data
    | none => splitWs cfgHosts.data
  shorts.map (fun h => String.mk (h ++ '.' :: common.data))

/-- The host-list computation exactly as the specification words it: a given
`--hosts` value is split on commas, an absent one falls back to the default
list split on whitespace, and each short name gets the domain suffix
appended with a `'.'` separator. Stated separately from `resolveHosts` to
compare the two. -/
def resolveHostsClaimed (hostsOpt : Option String) (cfgHosts common : String) :
    List String :=
  let shorts :=
    match hostsOpt with
    | some h => splitComma h.data
    | none => splitWs cfgHosts.data
  shorts.map (fun h => String.mk (h ++ '.' :: common.data))

/-- The outcome of running the command on one host (spec section 3):
success with captured output or failure with a description. -/
inductive CommandResult where
  | success (stdout stderr : String)
  | failure (error : String)
deriving DecidableEq

/-- Modelled from the spec: `run_group_command` (the Fan-Out Dispatcher of
`utils.py`, which is not under `src/`). It runs the command on every host
under the one identity and returns, after all hosts have finished, a
mapping with one `CommandResult` per host; `outcome` is the per-host result
of the remote execution (success or isolated failure). -/
def dispatch (hosts : List String) (identity command : String)
    (outcome : String → CommandResult) : List (String × CommandResult) :=
  hosts.map (fun h => (h, outcome h))

instance : DecidableRel (fun a b : String × List Record => a.1 ≤ b.1) :=
  fun a b => inferInstanceAs (Decidable (a.1 ≤ b.1))

instance : IsTotal (String × List Record) (fun a b => a.1 ≤ b.1) :=
  ⟨fun a b => le_total a.1 b.1⟩

instance : IsTrans (String × List Record) (fun a b => a.1 ≤ b.1) :=
  ⟨fun _ _ _ h1 h2 => le_trans h1 h2⟩

/-- Hosts in sorted order of host identity (spec section 4.3). -/
def sortPairs (l : List (String × List Record)) : List (String × List Record) :=
  List.insertionSort (fun a b => a.1 ≤ b.1) l

/-- Modelled from the spec: one row of `construct_table` (`utils.py`, not
under `src/`) — for each field of the field set, and any extra fields of
the record appended after, the record's value or the empty string when
absent. -/
def rowOfRecord (fieldSet : List String) (rec : Record) : List String :=
  (fieldSet ++ (rec.map Prod.fst).filter (fun k => !(fieldSet.contains k))).map
    (fun f => (List.lookup f rec).getD "")

/-- Modelled from the spec: the rows of `construct_table` — for each host
in sorted order of host identity, its records in original order, one row
per record. -/
def tableRows (fieldSet : List String) (hostRecords : List (String × List Record)) :
    List (List String) :=
  (sortPairs hostRecords).flatMap (fun p => p.2.map (rowOfRecord fieldSet))

/-- The cells of column `j` (rows shorter than `j + 1` contribute none). -/
def colCells (rows : List (List String)) (j : Nat) : List String :=
  rows.filterMap (fun r => r.get? j)

/-- The header of column `j` (empty for an extra column beyond the field
set). -/
def headerAt (fieldSet : List String) (j : Nat) : String :=
  (fieldSet.get? j).getD ""

/-- Modelled from the spec: the rendered width of column `j` of
`construct_table` — a single pass over the header and every cell of the
column, keeping the maximum length. -/
def colWidth (fieldSet : List String) (rows : List (List String)) (j : Nat) : Nat :=
  ((colCells rows j).map String.length).foldl max (headerAt fieldSet j).length

/-- Left-justify a cell to the column width. -/
def padTo (w : Nat) (s : String) : String :=
  s ++ String.mk (List.replicate (w - s.length) ' ')

/-- Modelled from the spec: `construct_table` (`utils.py`, not under
`src/`) — header row then data rows, each cell left-justified to its
column's width, columns separated by two spaces. -/
def renderTable (fieldSet : List String) (hostRecords : List (String × List Record)) :
    String :=
  let rows := tableRows fieldSet hostRecords
  let line := fun (cells : List String) =>
    String.intercalate "  " (cells.mapIdx (fun j c => padTo (colWidth fieldSet rows j) c))
  String.intercalate "\n" (line fieldSet :: rows.map line)

/-! ## Helper lemmas -/

theorem splitNl_ne_nil (s : List Char) : splitNl s ≠ [] := by
  induction s with
  | nil => simp [splitNl]
  | cons c cs ih =>
    by_cases hc : c = '\n'
    · simp [splitNl, hc]
    · cases h : splitNl cs with
      | nil => exact absurd h ih
      | cons l ls => simp [splitNl, hc, h]

theorem splitNl_append_nl (s : List Char) :
    splitNl (s ++ ['\n']) = splitNl s ++ [[]] := by
  induction s with
  | nil => rfl
  | cons c cs ih =>
    rw [List.cons_append]
    by_cases hc : c = '\n'
    · subst hc; simp [splitNl, ih]
    · cases h : splitNl cs with
      | nil => exact absurd h (splitNl_ne_nil cs)
      | cons l ls =>
        simp only [splitNl, hc, if_false, ih, h]
        simp

theorem splitNl_no_nl (s : List Char) (h : '\n' ∉ s) : splitNl s = [s] := by
  induction s with
  | nil => rfl
  | cons c cs ih =>
    have hc : c ≠ '\n' := fun hce => h (hce ▸ List.mem_cons_self c cs)
    have hcs : '\n' ∉ cs := fun hm => h (List.mem_cons_of_mem c hm)
    simp [splitNl, hc, ih hcs]

theorem map_fst_zip_eq_take {α β : Type} :
    ∀ (ks : List α) (vs : List β), (List.zip ks vs).map Prod.fst = ks.take vs.length
  | [], _ => by simp
  | _ :: _, [] => by simp
  | k :: ks, v :: vs => by simp [map_fst_zip_eq_take ks vs]

theorem lookup_eq_none_of_not_mem_keys {β : Type} :
    ∀ (l : List (String × β)) (f : String), f ∉ l.map Prod.fst →
      List.lookup f l = none
  | [], _, _ => rfl
  | (k, v) :: l, f, h => by
    have hk : (f == k) = false :=
      beq_eq_false_iff_ne.mpr (fun he => h (by simp [he]))
    have hl : f ∉ l.map Prod.fst := fun hm => h (by simp [hm])
    simp only [List.lookup, hk]
    exact lookup_eq_none_of_not_mem_keys l f hl

/-! ## Claim theorems -/

/-- C2: for every GPU-telemetry stdout, parsing discards exactly one
trailing empty line (the output ends with a line terminator) and produces
one record per remaining line by splitting on `', '`; zero data lines give
an empty record sequence, `"0, 45, 60, 2048, 8192\n"` gives exactly one
record with the five declared field values and `""` gives zero records. -/
theorem gpu_parse_one_record_per_line :
    (∀ s : List Char,
        gpuRecords (String.mk (s ++ ['\n'])) =
          (splitNl s).map
            (fun line => zipRecord gpuFieldNames ((splitCS line).map String.mk)))
    ∧ gpuRecords "0, 45, 60, 2048, 8192\n" =
        [[("INDEX", "0"), ("UTIL (%)", "45"), ("TEMP (°C)", "60"),
          ("USED (MiB)", "2048"), ("TOTAL (MiB)", "8192")]]
    ∧ gpuRecords "" = [] := by
  refine ⟨fun s => ?_, by decide, rfl⟩
  show (((splitNl (s ++ ['\n'])).map splitCS).dropLast).map _ = _
  rw [splitNl_append_nl, List.map_append]
  show ((splitNl s).map splitCS ++ [splitCS []]).dropLast.map _ = _
  rw [List.dropLast_concat, List.map_map]
  rfl

/-- C8: both parsers drop the last newline-separated segment of the stdout
unconditionally, so a stdout that does not end with a newline loses its
final data line: any newline-free stdout (such as
`"0, 45, 60, 2048, 8192"`) parses to zero records. -/
theorem parsers_drop_final_segment (s : String) (inspectOut : String → String)
    (hnl : '\n' ∉ s.data) :
    gpuRecords s = [] ∧ psRecords inspectOut s = [] := by
  have h := splitNl_no_nl s.data hnl
  constructor <;> simp [gpuRecords, psRecords, h]

/-- Witness for C8 at the claim's own example input. -/
theorem parsers_drop_final_segment_witness :
    gpuRecords "0, 45, 60, 2048, 8192" = []
    ∧ psRecords (fun _ => "") "0, 45, 60, 2048, 8192" = [] :=
  parsers_drop_final_segment "0, 45, 60, 2048, 8192" (fun _ => "") (by decide)

/-- C5: a line that splits into fewer comma-and-space-separated groups than
the declared field set has fields is still zipped positionally: the record's
keys are exactly the leading field names, the trailing declared fields are
absent (their lookup yields `none`), and no error is raised (the parse is a
total function). -/
theorem short_line_zipped_positionally (ks : List String) (line : List Char)
    (hnd : ks.Nodup) (hlt : (splitCS line).length < ks.length) :
    (zipRecord ks ((splitCS line).map String.mk)).map Prod.fst
      = ks.take (splitCS line).length
    ∧ ∀ f ∈ ks.drop (splitCS line).length,
        List.lookup f (zipRecord ks ((splitCS line).map String.mk)) = none := by
  have hkeys : (zipRecord ks ((splitCS line).map String.mk)).map Prod.fst
      = ks.take (splitCS line).length := by
    rw [zipRecord, map_fst_zip_eq_take, List.length_map]
  refine ⟨hkeys, fun f hf => ?_⟩
  apply lookup_eq_none_of_not_mem_keys
  rw [hkeys]
  exact fun hmem => List.disjoint_take_drop hnd (le_refl _) hmem hf

/-- Witness for C5: the GPU field set against a two-group line. -/
theorem short_line_zipped_positionally_witness :
    (zipRecord gpuFieldNames ((splitCS "0, 45".data).map String.mk)).map Prod.fst
      = gpuFieldNames.take (splitCS "0, 45".data).length
    ∧ ∀ f ∈ gpuFieldNames.drop (splitCS "0, 45".data).length,
        List.lookup f (zipRecord gpuFieldNames ((splitCS "0, 45".data).map String.mk))
          = none :=
  short_line_zipped_positionally gpuFieldNames "0, 45".data (by decide) (by decide)

/-- C10: an inspect stdout whose `NVIDIA_VISIBLE_DEVICES` value is the
multi-device list `0,1` yields the GPU field `"0"` — only the leading digit
run, not the full value and not the empty string. -/
theorem multi_device_value_truncated :
    gpuFieldOf "NVIDIA_VISIBLE_DEVICES=0,1" = "0"
    ∧ gpuFieldOf "NVIDIA_VISIBLE_DEVICES=0,1" ≠ "0,1"
    ∧ gpuFieldOf "NVIDIA_VISIBLE_DEVICES=0,1" ≠ "" := by
  refine ⟨by decide, by decide, by decide⟩

theorem psRecordOfLine_keys (io : String → String) (line : List Char) :
    (psRecordOfLine io line).map Prod.fst
      = psFieldNames.take ((splitCS line).length) ++ ["GPU"] := by
  show ((zipRecord psFieldNames ((splitCS line).map String.mk))
      ++ [("GPU", _)]).map Prod.fst = _
  rw [List.map_append, zipRecord, map_fst_zip_eq_take, List.length_map]
  rfl

/-- C9: every record of the container-listing parse has keys drawn from the
seven declared field names plus `GPU`, always contains the `GPU` key, and
never grows beyond eight entries — comma-groups beyond the seven declared
fields are silently discarded, never appended as extra columns. -/
theorem ps_record_keys_invariant (io : String → String) (s : String) :
    ∀ rec ∈ psRecords io s,
      (∀ k ∈ rec.map Prod.fst, k ∈ psFieldNames ++ ["GPU"])
      ∧ "GPU" ∈ rec.map Prod.fst
      ∧ rec.length ≤ psFieldNames.length + 1 := by
  intro rec hrec
  obtain ⟨line, _, rfl⟩ := List.mem_map.mp hrec
  have hkeys := psRecordOfLine_keys io line
  refine ⟨fun k hk => ?_, ?_, ?_⟩
  · rw [hkeys] at hk
    rcases List.mem_append.mp hk with hk | hk
    · exact List.mem_append.mpr (Or.inl (List.take_subset _ _ hk))
    · exact List.mem_append.mpr (Or.inr hk)
  · rw [hkeys]
    exact List.mem_append.mpr (Or.inr (by simp))
  · have hlen : (psRecordOfLine io line).length
        = (psFieldNames.take ((splitCS line).length)).length + 1 := by
      rw [← List.length_map (psRecordOfLine io line) Prod.fst, hkeys,
        List.length_append, List.length_singleton]
    rw [hlen]
    have := List.length_take ((splitCS line).length) psFieldNames
    omega


/-- Witness for C9 at a concrete two-group line. -/
theorem ps_record_keys_invariant_witness :
    (∀ k ∈ ([("ID", "a"), ("Image", "b"), ("GPU", "")] : Record).map Prod.fst,
        k ∈ psFieldNames ++ ["GPU"])
    ∧ "GPU" ∈ ([("ID", "a"), ("Image", "b"), ("GPU", "")] : Record).map Prod.fst
    ∧ ([("ID", "a"), ("Image", "b"), ("GPU", "")] : Record).length
        ≤ psFieldNames.length + 1 :=
  ps_record_keys_invariant (fun _ => "") "a, b\n"
    [("ID", "a"), ("Image", "b"), ("GPU", "")] (by decide)

theorem nvdValue_shape (rest : List Char) :
    nvdValue rest = none ∨ nvdValue rest = some "all".data
    ∨ ∃ v, nvdValue rest = some v ∧ v ≠ [] ∧ ∀ c ∈ v, c.isDigit = true := by
  unfold nvdValue
  split_ifs with h1 h2
  · exact Or.inr (Or.inl rfl)
  · exact Or.inl rfl
  · refine Or.inr (Or.inr ⟨_, rfl, h2, fun c hc => ?_⟩)
    exact List.mem_takeWhile_imp hc

theorem nvdMatchAt_shape (s : List Char) :
    nvdMatchAt s = none ∨ nvdMatchAt s = some "all".data
    ∨ ∃ v, nvdMatchAt s = some v ∧ v ≠ [] ∧ ∀ c ∈ v, c.isDigit = true := by
  unfold nvdMatchAt
  split_ifs with h
  · exact nvdValue_shape _
  · exact Or.inl rfl

theorem nvdSearch_shape (s : List Char) :
    nvdSearch s = none ∨ nvdSearch s = some "all".data
    ∨ ∃ v, nvdSearch s = some v ∧ v ≠ [] ∧ ∀ c ∈ v, c.isDigit = true := by
  induction s with
  | nil => exact Or.inl rfl
  | cons c cs ih =>
    rcases nvdMatchAt_shape (c :: cs) with h | h | ⟨v, h, hv1, hv2⟩
    · have heq : nvdSearch (c :: cs) = nvdSearch cs := by
        simp only [nvdSearch, h]
      rw [heq]; exact ih
    · exact Or.inr (Or.inl (by simp only [nvdSearch, h]))
    · exact Or.inr (Or.inr ⟨v, by simp only [nvdSearch, h], hv1, hv2⟩)

/-- C4: the derived GPU field is extracted by matching
`NVIDIA_VISIBLE_DEVICES=` followed by the literal `all` or a non-negative
integer string; the extraction is a total function (never an error) whose
result is always the empty string (no match), `"all"`, or a non-empty digit
string, and an inspect stdout with no match yields the empty string. -/
theorem gpu_field_extraction_total :
    (∀ s : String,
        gpuFieldOf s = "" ∨ gpuFieldOf s = "all"
        ∨ (gpuFieldOf s ≠ "" ∧ ∀ c ∈ (gpuFieldOf s).data, c.isDigit = true))
    ∧ gpuFieldOf "[PATH=/usr/bin NVIDIA_VISIBLE_DEVICES=all HOME=/root]" = "all"
    ∧ gpuFieldOf "[PATH=/usr/bin HOME=/root]" = "" := by
  refine ⟨fun s => ?_, by decide, by decide⟩
  unfold gpuFieldOf
  rcases nvdSearch_shape s.data with h | h | ⟨v, h, hv1, hv2⟩
  · rw [h]; exact Or.inl rfl
  · rw [h]; exact Or.inr (Or.inl rfl)
  · rw [h]
    refine Or.inr (Or.inr ⟨fun he => hv1 (congrArg String.data he), hv2⟩)

/-- C1: for every non-empty set of N hosts, the dispatcher returns a
mapping with exactly N entries and exactly one entry per input host,
whatever the per-host outcomes (successes or failures); the result is the
complete join of all hosts' outcomes. -/
theorem dispatch_one_entry_per_host (hosts : List String)
    (identity command : String) (outcome : String → CommandResult)
    (hne : hosts ≠ []) (hnd : hosts.Nodup) :
    (dispatch hosts identity command outcome).length = hosts.length
    ∧ (dispatch hosts identity command outcome).map Prod.fst = hosts
    ∧ ∀ h ∈ hosts,
        ((dispatch hosts identity command outcome).filter
          (fun p => p.1 == h)).length = 1 := by
  refine ⟨List.length_map _ _, ?_, fun h hh => ?_⟩
  · show (hosts.map _).map Prod.fst = hosts
    rw [List.map_map]
    exact List.map_id hosts
  · show ((hosts.map (fun h' => (h', outcome h'))).filter
      (fun p => p.1 == h)).length = 1
    rw [List.filter_map, List.length_map, ← List.countP_eq_length_filter]
    exact List.count_eq_one_of_mem hnd hh

/-- Witness for C1: two hosts, one failing, one succeeding. -/
theorem dispatch_one_entry_per_host_witness :
    (dispatch ["a", "b"] "user" "nvidia-smi"
        (fun h => if h = "a" then CommandResult.failure "connection refused"
          else CommandResult.success "ok" "")).length
        = (["a", "b"] : List String).length
    ∧ (dispatch ["a", "b"] "user" "nvidia-smi"
        (fun h => if h = "a" then CommandResult.failure "connection refused"
          else CommandResult.success "ok" "")).map Prod.fst = ["a", "b"]
    ∧ ∀ h ∈ (["a", "b"] : List String),
        ((dispatch ["a", "b"] "user" "nvidia-smi"
          (fun h => if h = "a" then CommandResult.failure "connection refused"
            else CommandResult.success "ok" "")).filter
          (fun p => p.1 == h)).length = 1 :=
  dispatch_one_entry_per_host ["a", "b"] "user" "nvidia-smi"
    (fun h => if h = "a" then CommandResult.failure "connection refused"
      else CommandResult.success "ok" "") (by decide) (by decide)

/-- C7 counterexample: with the `--hosts` option given as the empty string,
the code falls back to the configured default host list (Python truthiness),
while the claim's rule (always split a given `--hosts` value on commas)
would produce the single host `".net"`. -/
theorem hosts_flag_empty_counterexample :
    resolveHosts (some "") "a b" "net" ≠ resolveHostsClaimed (some "") "a b" "net" := by
  decide

/-- C7 amended: if `--hosts` is given with a non-empty value it is split on
commas; otherwise — the option absent or given as the empty string — the
configured default host list is split on whitespace; in both cases each
short name gets the configured common domain suffix appended with a `'.'`
separator. -/
theorem resolve_hosts_amended (hostsOpt : Option String) (cfgHosts common : String)
    (hne : hostsOpt ≠ some "") :
    resolveHosts hostsOpt cfgHosts common = resolveHostsClaimed hostsOpt cfgHosts common
    ∧ resolveHosts (some "") cfgHosts common = resolveHostsClaimed none cfgHosts common := by
  constructor
  · cases hostsOpt with
    | none => rfl
    | some h =>
      have hd : ¬h.data = [] := fun he => hne (congrArg some (String.ext he))
      simp [resolveHosts, resolveHostsClaimed, hd]
  · rfl

/-- Witness for C7's amended claim at a concrete non-empty option value. -/
theorem resolve_hosts_amended_witness :
    resolveHosts (some "x,y") "a b" "net" = resolveHostsClaimed (some "x,y") "a b" "net"
    ∧ resolveHosts (some "") "a b" "net" = resolveHostsClaimed none "a b" "net" :=
  resolve_hosts_amended (some "x,y") "a b" "net" (by decide)

theorem foldl_max_eq_max_foldr (a : Nat) (l : List Nat) :
    l.foldl max a = max a (l.foldr max 0) := by
  induction l generalizing a with
  | nil => simp
  | cons x xs ih =>
    simp only [List.foldl, List.foldr]
    rw [ih (max a x), max_assoc]

theorem le_foldr_max (x : Nat) (l : List Nat) (hx : x ∈ l) :
    x ≤ l.foldr max 0 := by
  induction l with
  | nil => cases hx
  | cons y ys ih =>
    rcases List.mem_cons.mp hx with rfl | hx'
    · exact le_max_left _ _
    · exact le_trans (ih hx') (le_max_right _ _)

/-- C6: every column's rendered width equals the maximum over the header
length and the lengths of all cells in that column; in particular it is at
least the header length and at least every cell's length. -/
theorem column_width_is_max (fieldSet : List String)
    (hostRecords : List (String × List Record)) (j : Nat) :
    colWidth fieldSet (tableRows fieldSet hostRecords) j
      = max (headerAt fieldSet j).length
          (((colCells (tableRows fieldSet hostRecords) j).map String.length).foldr max 0)
    ∧ (headerAt fieldSet j).length
        ≤ colWidth fieldSet (tableRows fieldSet hostRecords) j
    ∧ ∀ cell ∈ colCells (tableRows fieldSet hostRecords) j,
        cell.length ≤ colWidth fieldSet (tableRows fieldSet hostRecords) j := by
  have h1 := foldl_max_eq_max_foldr (headerAt fieldSet j).length
    ((colCells (tableRows fieldSet hostRecords) j).map String.length)
  refine ⟨h1, ?_, fun cell hc => ?_⟩
  · rw [colWidth, h1]; exact le_max_left _ _
  · rw [colWidth, h1]
    exact le_trans
      (le_foldr_max _ _ (List.mem_map_of_mem String.length hc))
      (le_max_right _ _)

theorem flatMap_eq_flatMap_filter {α β : Type} (f : α → List β) (g : α → Bool)
    (l : List α) (hf : ∀ x ∈ l, g x = false → f x = []) :
    l.flatMap f = (l.filter g).flatMap f := by
  induction l with
  | nil => rfl
  | cons x xs ih =>
    have ih' := ih (fun y hy => hf y (List.mem_cons_of_mem x hy))
    cases hg : g x with
    | true => simp [List.filter_cons, hg, ih']
    | false =>
      simp [List.filter_cons, hg, ih', hf x (List.mem_cons_self x xs) hg]

theorem sorted_keys_perm_eq :
    ∀ xs ys : List (String × List Record),
      xs.Perm ys →
      List.Pairwise (fun a b => a.1 ≤ b.1) xs →
      List.Pairwise (fun a b => a.1 ≤ b.1) ys →
      (xs.map Prod.fst).Nodup → xs = ys := by
  intro xs
  induction xs with
  | nil => intro ys hp _ _ _; exact hp.nil_eq
  | cons x xs' ih =>
    intro ys hp hsx hsy hnd
    cases ys with
    | nil =>
      have := hp.length_eq
      simp at this
    | cons y ys' =>
      by_cases hxy : x = y
      · subst hxy
        have hp' := hp.cons_inv
        have hx' := (List.pairwise_cons.mp hsx).2
        have hy' := (List.pairwise_cons.mp hsy).2
        have hnd' : (xs'.map Prod.fst).Nodup := by
          simp only [List.map_cons, List.nodup_cons] at hnd
          exact hnd.2
        rw [ih ys' hp' hx' hy' hnd']
      · exfalso
        simp only [List.map_cons, List.nodup_cons] at hnd
        have hx_mem : x ∈ y :: ys' := hp.mem_iff.mp (List.mem_cons_self x xs')
        rcases List.mem_cons.mp hx_mem with he | hx'
        · exact hxy he
        · have hyx : y.1 ≤ x.1 := (List.pairwise_cons.mp hsy).1 x hx'
          have hy_mem : y ∈ x :: xs' := hp.symm.mem_iff.mp (List.mem_cons_self y ys')
          rcases List.mem_cons.mp hy_mem with he | hy'
          · exact hxy he.symm
          · have hxle : x.1 ≤ y.1 := (List.pairwise_cons.mp hsx).1 y hy'
            have heq : y.1 = x.1 := le_antisymm hyx hxle
            exact hnd.1 (heq ▸ List.mem_map_of_mem Prod.fst hy')

theorem tableRows_erase_empty_host (fieldSet : List String)
    (l1 l2 : List (String × List Record)) (h : String)
    (hnd : ((l1 ++ (h, []) :: l2).map Prod.fst).Nodup) :
    tableRows fieldSet (l1 ++ (h, ([] : List Record)) :: l2)
      = tableRows fieldSet (l1 ++ l2) := by
  classical
  let g : String × List Record → Bool := fun p => !p.2.isEmpty
  let f : String × List Record → List (List String) :=
    fun p => p.2.map (rowOfRecord fieldSet)
  have hf : ∀ x : String × List Record, g x = false → f x = [] := by
    intro x hx
    have hx2 : x.2 = [] := by
      have : x.2.isEmpty = true := by simpa [g] using hx
      simpa using this
    show x.2.map (rowOfRecord fieldSet) = []
    rw [hx2]; rfl
  have hA_perm : (sortPairs (l1 ++ (h, []) :: l2)).Perm (l1 ++ (h, ([] : List Record)) :: l2) :=
    List.perm_insertionSort _ _
  have hB_perm : (sortPairs (l1 ++ l2)).Perm (l1 ++ l2) := List.perm_insertionSort _ _
  have hA_sorted : List.Pairwise (fun a b : String × List Record => a.1 ≤ b.1)
      (sortPairs (l1 ++ (h, []) :: l2)) := List.sorted_insertionSort _ _
  have hB_sorted : List.Pairwise (fun a b : String × List Record => a.1 ≤ b.1)
      (sortPairs (l1 ++ l2)) := List.sorted_insertionSort _ _
  have hgh : g (h, ([] : List Record)) = false := by simp [g]
  have hfilter_perm : ((sortPairs (l1 ++ (h, []) :: l2)).filter g).Perm
      ((sortPairs (l1 ++ l2)).filter g) := by
    refine (hA_perm.filter g).trans (.trans ?_ (hB_perm.filter g).symm)
    rw [List.filter_append, List.filter_append, List.filter_cons_of_neg (by simp [hgh])]
  have hAf_sorted : List.Pairwise (fun a b : String × List Record => a.1 ≤ b.1)
      ((sortPairs (l1 ++ (h, []) :: l2)).filter g) :=
    List.Pairwise.sublist (List.filter_sublist _) hA_sorted
  have hBf_sorted : List.Pairwise (fun a b : String × List Record => a.1 ≤ b.1)
      ((sortPairs (l1 ++ l2)).filter g) :=
    List.Pairwise.sublist (List.filter_sublist _) hB_sorted
  have hA_nodup : ((sortPairs (l1 ++ (h, []) :: l2)).map Prod.fst).Nodup :=
    ((hA_perm.map Prod.fst).nodup_iff).mpr hnd
  have hAf_nodup : (((sortPairs (l1 ++ (h, []) :: l2)).filter g).map Prod.fst).Nodup :=
    hA_nodup.sublist (List.Sublist.map Prod.fst (List.filter_sublist _))
  have heq : (sortPairs (l1 ++ (h, []) :: l2)).filter g
      = (sortPairs (l1 ++ l2)).filter g :=
    sorted_keys_perm_eq _ _ hfilter_perm hAf_sorted hBf_sorted hAf_nodup
  calc tableRows fieldSet (l1 ++ (h, ([] : List Record)) :: l2)
      = (sortPairs (l1 ++ (h, []) :: l2)).flatMap f := rfl
    _ = ((sortPairs (l1 ++ (h, []) :: l2)).filter g).flatMap f :=
        flatMap_eq_flatMap_filter f g _ (fun x _ => hf x)
    _ = ((sortPairs (l1 ++ l2)).filter g).flatMap f := by rw [heq]
    _ = (sortPairs (l1 ++ l2)).flatMap f :=
        (flatMap_eq_flatMap_filter f g _ (fun x _ => hf x)).symm
    _ = tableRows fieldSet (l1 ++ l2) := rfl

/-- C3: the table's rows are grouped by host in sorted order of host
identity (the sort only reorders whole host entries, keeping each host's
records in original parse order); each cell of a row is the record's value
for the column's field, or the empty string when absent; and a host with an
empty record sequence contributes zero rows while leaving the rest of the
table unaffected. -/
theorem table_rows_render (fieldSet : List String)
    (hostRecords l1 l2 : List (String × List Record)) (h : String) (rec : Record)
    (hnd : ((l1 ++ (h, []) :: l2).map Prod.fst).Nodup) :
    List.Sorted (fun a b : String => a ≤ b) ((sortPairs hostRecords).map Prod.fst)
    ∧ (sortPairs hostRecords).Perm hostRecords
    ∧ (rowOfRecord fieldSet rec).take fieldSet.length
        = fieldSet.map (fun f => (List.lookup f rec).getD "")
    ∧ tableRows fieldSet (l1 ++ (h, ([] : List Record)) :: l2)
        = tableRows fieldSet (l1 ++ l2) := by
  refine ⟨?_, List.perm_insertionSort _ _, ?_,
    tableRows_erase_empty_host fieldSet l1 l2 h hnd⟩
  · have hs := List.sorted_insertionSort
      (fun a b : String × List Record => a.1 ≤ b.1) hostRecords
    exact List.Pairwise.map Prod.fst (fun a b hab => hab) hs
  · rw [rowOfRecord, List.map_append]
    have hl : (fieldSet.map (fun f => (List.lookup f rec).getD "")).length
        = fieldSet.length := List.length_map _ _
    rw [← hl, List.take_left]

/-- Witness for C3 at concrete hosts, one of them with zero records. -/
theorem table_rows_render_witness :
    List.Sorted (fun a b : String => a ≤ b)
      ((sortPairs [("b", [[("INDEX", "0")]]), ("a", [])]).map Prod.fst)
    ∧ (sortPairs [("b", [[("INDEX", "0")]]), ("a", [])]).Perm
        [("b", [[("INDEX", "0")]]), ("a", [])]
    ∧ (rowOfRecord gpuFieldNames [("INDEX", "0"), ("EXTRA", "x")]).take
        gpuFieldNames.length
        = gpuFieldNames.map
            (fun f => (List.lookup f [("INDEX", "0"), ("EXTRA", "x")]).getD "")
    ∧ tableRows gpuFieldNames
        ([("b", [[("INDEX", "1")]])] ++ ("a", ([] : List Record))
          :: [("c", [[("INDEX", "2")]])])
        = tableRows gpuFieldNames
            ([("b", [[("INDEX", "1")]])] ++ [("c", [[("INDEX", "2")]])]) :=
  table_rows_render gpuFieldNames [("b", [[("INDEX", "0")]]), ("a", [])]
    [("b", [[("INDEX", "1")]])] [("c", [[("INDEX", "2")]])] "a"
    [("INDEX", "0"), ("EXTRA", "x")] (by decide)
